import Mathlib

/-
Verification of the Org Health Analyzer (src/app.py): spans-and-layers
metric computation over an organizational roster.

The embedding below models the computation core of `app.py`:
  * sheet/table data model (Employees, OrgEdges, Principles),
  * direct-report counts (pandas groupby/merge, lines 67-80),
  * depth assignment via breadth-first traversal from roots (lines 83-110),
  * threshold seeding from the Principles sheet (lines 113-131),
  * KPIs, flagged subsets, duplicate-title detection and
    recommendation building (lines 144-225).

String-valued cells are modelled after `_standardize` + `astype(str)`:
every cell is already a string; a missing/NaN ManagerID appears as the
string "nan" (exactly what `astype(str)` produces), so "manager is
null/absent" and "manager does not match any employee" collapse into the
single condition `managerID not in employee ids`, as in the code.
-/

namespace OrgHealth

/-- A row of the OrgEdges sheet: one explicit reporting edge
(EmployeeID reports to ManagerID), after `astype(str)`. -/
structure EdgeRow where
  employeeID : String
  managerID : String
deriving DecidableEq

/-- A row of the Employees sheet after `_standardize` / `astype(str)`.
`managerID` is meaningful only when the table has a ManagerID column;
`jobRole` only when it has a JobRole column.  `fullName` is `none` when
the FullName column is absent (row.get fallback in the code). -/
structure EmpRow where
  employeeID : String
  managerID : String
  fullName : Option String
  jobRole : String
deriving DecidableEq

/-- The Employees table: its rows plus which optional columns exist. -/
structure EmployeesTable where
  hasManagerID : Bool
  hasJobRole : Bool
  rows : List EmpRow
deriving DecidableEq

/-- A row of the Principles sheet (Name, TargetRule), stringified. -/
structure PrincipleRow where
  name : String
  targetRule : String
deriving DecidableEq

/-- The named tables handed to `compute_metrics` by the loader
(`pick` has already resolved the fuzzy sheet names). -/
structure Sheets where
  employees : Option EmployeesTable
  edges : Option (List EdgeRow)
  principles : Option (List PrincipleRow)
deriving DecidableEq

/-- The session-scoped threshold cache (`st.session_state` keys
`_min_span`, `_max_span`, `_max_layers`, `_prefilled_from_principles`). -/
structure Session where
  minSpanCache : Option Nat
  maxSpanCache : Option Nat
  maxLayersCache : Option Nat
  prefilled : Bool
deriving DecidableEq

/-- A fresh session: no cached values, seeding not yet performed. -/
def sessionStart : Session := ⟨none, none, none, false⟩

/-- The sidebar controls: `min_span`, `max_span`, `max_layers_target`
(`st.number_input` values; defaults 4, 12, 6). -/
structure Widgets where
  minSpan : Nat
  maxSpan : Nat
  maxLayersTarget : Nat
deriving DecidableEq

/-- The widget values when the user does not touch the sidebar. -/
def defaultWidgets : Widgets := ⟨4, 12, 6⟩

/-- Reporting pairs (employeeID, managerID) taken from the OrgEdges rows. -/
def edgePairs (es : List EdgeRow) : List (String × String) :=
  es.map (fun e => (e.employeeID, e.managerID))

/-- Reporting pairs (employeeID, managerID) taken from the Employees rows
(the `ManagerID` column fallback). -/
def empPairs (emps : EmployeesTable) : List (String × String) :=
  emps.rows.map (fun r => (r.employeeID, r.managerID))

/-- Source selection (app.py lines 67-76): the edge table is authoritative
when present, otherwise the employee table's ManagerID column. -/
def reportingPairs (emps : EmployeesTable) (edges? : Option (List EdgeRow)) :
    List (String × String) :=
  match edges? with
  | some es => edgePairs es
  | none => empPairs emps

/-- Per-identifier direct-report count:
`groupby('ManagerID')['EmployeeID'].count()` followed by the left merge and
`fillna(0)` gives, for each employee id, the number of source rows whose
ManagerID equals that id (0 when the id never appears as a manager). -/
def directReportsCount (pairs : List (String × String)) (id : String) : Nat :=
  (pairs.filter (fun pr => pr.2 == id)).length

/-- Adjacency `parent_of[m]` (a Python set of subordinate ids): the distinct
employee ids of pairs whose manager is `m` (app.py lines 84-86 / 91-93). -/
def childrenOf (pairs : List (String × String)) (m : String) : List String :=
  ((pairs.filter (fun pr => pr.2 == m)).map Prod.fst).dedup

/-- Stable insertion into a list ordered by `le` (used to model both
`sorted(...)` and pandas `sort_values`). -/
def insertLe (le : α → α → Bool) (x : α) : List α → List α
  | [] => [x]
  | y :: ys => if le x y then x :: y :: ys else y :: insertLe le x ys

/-- Stable insertion sort by `le`. -/
def sortLe (le : α → α → Bool) : List α → List α
  | [] => []
  | x :: xs => insertLe le x (sortLe le xs)

/-- Roots in the edge case (app.py line 89):
`sorted(list(set(edges.ManagerID) - set(edges.EmployeeID)))`. -/
def edgeRoots (pairs : List (String × String)) : List String :=
  sortLe (fun a b => decide (a ≤ b))
    (((pairs.map Prod.snd).filter
        (fun m => !((pairs.map Prod.fst).contains m))).dedup)

/-- Employee ids in row order (`emp['EmployeeID']`). -/
def empIDs (emps : EmployeesTable) : List String :=
  emps.rows.map (fun r => r.employeeID)

/-- Roots in the no-edge case (app.py line 94): employee ids whose
ManagerID is not an employee id, deduplicated. -/
def rootsNoEdges (emps : EmployeesTable) : List String :=
  ((emps.rows.filter
      (fun r => !((empIDs emps).contains r.managerID))).map
      (fun r => r.employeeID)).dedup

/-- Inner loop of the BFS (app.py lines 103-106): for each child of the
current node, if it has no depth yet, assign `d1` and remember it for the
queue.  Returns the updated assignment and the newly enqueued nodes. -/
def visitKids (d1 : Nat) : List String → (String → Option Nat) →
    ((String → Option Nat) × List String)
  | [], asg => (asg, [])
  | c :: cs, asg =>
    match asg c with
    | some _ => visitKids d1 cs asg
    | none =>
      let r := visitKids d1 cs (fun x => if x = c then some d1 else asg x)
      (r.1, c :: r.2)

/-- The BFS queue loop (app.py lines 100-106), fuelled.  The fuel passed by
`computeDepthMap` always dominates the loop measure, so the queue drains.
`(asg cur).getD 0` models `(depth.get(cur, 0) or 0)`. -/
def bfsLoop (ch : String → List String) :
    Nat → List String → (String → Option Nat) → (String → Option Nat)
  | 0, _, asg => asg
  | _ + 1, [], asg => asg
  | fuel + 1, cur :: rest, asg =>
    let r := visitKids ((asg cur).getD 0 + 1) (ch cur) asg
    bfsLoop ch fuel (rest ++ r.2) r.1

/-- The per-root loop (app.py lines 97-106): seed the root with depth 0 when
it is a dict key (`r in depth`) and still unassigned, then run one BFS. -/
def runRoots (ch : String → List String) (fuel : Nat)
    (initKeys : List String) :
    List String → (String → Option Nat) → (String → Option Nat)
  | [], asg => asg
  | r :: rs, asg =>
    let asg1 := if initKeys.contains r && (asg r).isNone
      then (fun x => if x = r then some 0 else asg x) else asg
    runRoots ch fuel initKeys rs (bfsLoop ch fuel [r] asg1)

/-- All node names that can ever carry a depth assignment. -/
def depthUniverse (pairs : List (String × String))
    (initKeys : List String) : List String :=
  (initKeys ++ pairs.map Prod.fst ++ pairs.map Prod.snd).dedup

/-- The depth dictionary after all BFS passes (app.py lines 96-106).
`none` models a key still holding Python `None` (or a missing key). -/
def computeDepthMap (pairs : List (String × String))
    (initKeys roots : List String) : String → Option Nat :=
  runRoots (childrenOf pairs) ((depthUniverse pairs initKeys).length + 1)
    initKeys roots (fun _ => none)

/-- Root list used for the traversal, by reporting source (lines 89 / 94). -/
def depthRoots (emps : EmployeesTable) (edges? : Option (List EdgeRow)) :
    List String :=
  match edges? with
  | some es => edgeRoots (edgePairs es)
  | none => rootsNoEdges emps

/-- Final per-employee depth (app.py lines 107-110): leftover `None`
entries become 0, and `emp['Depth']` reads the dictionary per employee id. -/
def empDepth (emps : EmployeesTable) (edges? : Option (List EdgeRow)) :
    String → Nat :=
  fun id =>
    ((computeDepthMap (reportingPairs emps edges?) (empIDs emps)
        (depthRoots emps edges?)) id).getD 0

/-- An employee row with the derived columns attached
(DirectReports, IsManager, Depth — app.py lines 78-80, 110). -/
structure AnnRow where
  base : EmpRow
  directReports : Nat
  isManager : Bool
  depth : Nat
deriving DecidableEq

/-- The annotated employee table `emp` returned by `compute_metrics`. -/
def annotateEmp (emps : EmployeesTable) (edges? : Option (List EdgeRow)) :
    List AnnRow :=
  emps.rows.map (fun r =>
    let dr := directReportsCount (reportingPairs emps edges?) r.employeeID
    ⟨r, dr, decide (0 < dr), empDepth emps edges? r.employeeID⟩)

/-- All digit characters of `s`, concatenated:
`''.join(filter(str.isdigit, s))` (app.py lines 120-121). -/
def digitsOf (s : String) : String :=
  String.mk (s.data.filter (fun c => c.isDigit))

/-- Decimal value of a digit-character list (how Python `int` reads it). -/
def digitsToNat (l : List Char) : Nat :=
  l.foldl (fun n c => n * 10 + (c.toNat - 48)) 0

/-- `int(''.join(filter(str.isdigit, s)))`, `none` when it would raise
(no digit characters at all). -/
def allDigitsNat (s : String) : Option Nat :=
  match s.data.filter (fun c => c.isDigit) with
  | [] => none
  | ds => some (digitsToNat ds)

/-- Split a character list at every occurrence of `sep`, keeping empty
pieces (Python `str.split('-')` for the single-character separator). -/
def splitCharAux (sep : Char) : List Char → List Char → List (List Char)
  | [], acc => [acc.reverse]
  | c :: cs, acc =>
    if c == sep then acc.reverse :: splitCharAux sep cs []
    else splitCharAux sep cs (c :: acc)

/-- Python `s.split('-')` (the separator used by the span parse). -/
def splitChar (sep : Char) (s : String) : List String :=
  (splitCharAux sep s.data []).map String.mk

/-- Split a character list at every character satisfying `p`, keeping
empty pieces. -/
def splitPredAux (p : Char → Bool) : List Char → List Char → List (List Char)
  | [], acc => [acc.reverse]
  | c :: cs, acc =>
    if p c then acc.reverse :: splitPredAux p cs []
    else splitPredAux p cs (c :: acc)

/-- Python `str.split()` (no argument): whitespace split with empty
pieces discarded. -/
def pyTokens (s : String) : List String :=
  ((splitPredAux (fun c => c.isWhitespace) s.data []).map String.mk).filter
    (fun t => !(t == r""))

/-- ASCII lowering on code points (enough for the needles "span" and
"layer" used by `str.contains(..., case=False)`). -/
def charLowerNat (c : Char) : Nat :=
  if 65 ≤ c.toNat && c.toNat ≤ 90 then c.toNat + 32 else c.toNat

/-- Whether `needle` occurs at the head of `hay`. -/
def leadsWith : List Nat → List Nat → Bool
  | [], _ => true
  | _ :: _, [] => false
  | a :: as, b :: bs => a == b && leadsWith as bs

/-- Whether `needle` occurs anywhere inside `hay`. -/
def hasSegment (needle : List Nat) : List Nat → Bool
  | [] => leadsWith needle []
  | b :: bs => leadsWith needle (b :: bs) || hasSegment needle bs

/-- Case-insensitive substring test, for
`principles['Name'].str.contains(needle, case=False)`. -/
def containsCI (hay needle : String) : Bool :=
  hasSegment (needle.data.map charLowerNat) (hay.data.map charLowerNat)

/-- Span-target parsing (app.py lines 117-121) applied to a session.
Mirrors the exception flow of the `try` block: no dash, no token after the
first dash, or no digits left of the dash leave the session unchanged;
digits on the left but none in the first right-hand token set only
`_min_span` (the `int` on the right raises after `_min_span` was stored). -/
def seedSpanParts : List String → Session → Session
  | left :: right :: _, s =>
    (match (pyTokens right).head? with
    | none => s
    | some rtok =>
      match allDigitsNat left with
      | none => s
      | some mn =>
        match allDigitsNat rtok with
        | none => { s with minSpanCache := some mn }
        | some mx =>
          { s with minSpanCache := some mn, maxSpanCache := some mx })
  | _, s => s

def seedSpanCaches (tr : String) (s : Session) : Session :=
  seedSpanParts (splitChar '-' tr) s

/-- First whitespace token of `tr` consisting only of digit characters
(`[int(x) for x in str(p_layers).split() if x.isdigit()]`, first element). -/
def firstDigitTok (tr : String) : Option String :=
  ((pyTokens tr).filter (fun t => t.data.all (fun c => c.isDigit))).head?

/-- Layer-target parsing (app.py lines 125-128). -/
def seedLayersCaches (tr : String) (s : Session) : Session :=
  match firstDigitTok tr with
  | none => s
  | some t => { s with maxLayersCache := some (digitsToNat t.data) }

/-- One seeding pass over the Principles rows (app.py lines 113-131):
first row whose Name contains "span" feeds the span parse, first row whose
Name contains "layer" feeds the layer parse, and the prefilled flag is set
regardless of parse success. -/
def seedFromPrinciples (ps : List PrincipleRow) (s : Session) : Session :=
  let s1 := match ps.find? (fun r => containsCI r.name r"span") with
    | some row => seedSpanCaches row.targetRule s
    | none => s
  let s2 := match ps.find? (fun r => containsCI r.name r"layer") with
    | some row => seedLayersCaches row.targetRule s1
    | none => s1
  { s2 with prefilled := true }

/-- Session update performed by `compute_metrics`: seeding runs only when a
Principles table is present and the session was never seeded before. -/
def seedSession (p? : Option (List PrincipleRow)) (s : Session) : Session :=
  match p? with
  | none => s
  | some ps => if s.prefilled then s else seedFromPrinciples ps s

/-- The ways the pipeline halts.  `noEmployees` and `noReportingSource` are
the two `st.error` + `st.stop` paths (lines 57-59, 73-75);
`emptyRosterMaxCrash` models the unhandled `ValueError` raised by
`int(emp['Depth'].max())` (line 153) when the employee table has no rows
(`Series.max()` of an empty series is NaN and `int(NaN)` raises). -/
inductive AppError
  | noEmployees
  | noReportingSource
  | emptyRosterMaxCrash
deriving DecidableEq

/-- The `compute_metrics` entry (app.py lines 45-133): fail fast on a
missing Employees table, or on no OrgEdges and no ManagerID column;
otherwise annotate the employee table and run the (at-most-once) threshold
seeding. -/
def computeMetrics (s : Sheets) (sess : Session) :
    Except AppError (List AnnRow × Session) :=
  match s.employees with
  | none => .error .noEmployees
  | some emps =>
    match s.edges with
    | some es => .ok (annotateEmp emps (some es), seedSession s.principles sess)
    | none =>
      if emps.hasManagerID
      then .ok (annotateEmp emps none, seedSession s.principles sess)
      else .error .noReportingSource

/-- `manager_df = emp[emp['IsManager']]` (app.py line 145). -/
def managersOf (emp : List AnnRow) : List AnnRow :=
  emp.filter (fun r => r.isManager)

/-- `below_min` (app.py line 156): managers strictly below the min span. -/
def belowMin (emp : List AnnRow) (minSpan : Nat) : List AnnRow :=
  (managersOf emp).filter (fun r => decide (r.directReports < minSpan))

/-- `above_max` (app.py line 157): managers strictly above the max span. -/
def aboveMax (emp : List AnnRow) (maxSpan : Nat) : List AnnRow :=
  (managersOf emp).filter (fun r => decide (maxSpan < r.directReports))

/-- `single_report` (app.py line 158): managers with exactly one report. -/
def singleReport (emp : List AnnRow) : List AnnRow :=
  (managersOf emp).filter (fun r => r.directReports == 1)

/-- The manager ratio `(n_managers / n_people) if n_people else 0`
(app.py line 147), idealized over the rationals. -/
def managerShare (emp : List AnnRow) : ℚ :=
  if emp.length = 0 then 0
  else ((managersOf emp).length : ℚ) / (emp.length : ℚ)

/-- `int(emp['Depth'].max())` (app.py line 153): maximum depth, or the
`int(NaN)` ValueError on an empty roster. -/
def maxDepthKPI (emp : List AnnRow) : Except AppError Nat :=
  match emp with
  | [] => .error .emptyRosterMaxCrash
  | _ => .ok ((emp.map (fun r => r.depth)).foldl Nat.max 0)

/-- The (ManagerID, JobRole) pairs of the `child_roles` merge
(app.py line 162): each edge joined with the employee rows carrying its
EmployeeID.  Unmatched edges produce a NaN JobRole, which the subsequent
groupby drops — here they simply contribute nothing. -/
def childRolePairs (es : List EdgeRow) (rows : List EmpRow) :
    List (String × String) :=
  (es.map (fun e =>
    ((rows.filter (fun r => r.employeeID == e.employeeID)).map
      (fun r => (e.managerID, r.jobRole))))).flatten

/-- Duplicate-title detection (app.py lines 161-167): group `child_roles`
by (ManagerID, JobRole) — pandas emits groups in ascending key order —
count, keep counts ≥ 2, and sort by count descending.  Empty whenever the
edge table or the JobRole column is absent. -/
def dupTitles (edges? : Option (List EdgeRow)) (emps : EmployeesTable) :
    List (String × String × Nat) :=
  match edges?, emps.hasJobRole with
  | some es, true =>
    let prs := childRolePairs es emps.rows
    let keys := sortLe
      (fun a b => decide (a.1 < b.1) || (a.1 == b.1 && decide (a.2 ≤ b.2)))
      prs.dedup
    let counted := keys.map (fun k =>
      (k.1, k.2, (prs.filter (fun p => p == k)).length))
    sortLe (fun a b => decide (b.2.2 ≤ a.2.2))
      (counted.filter (fun t => decide (2 ≤ t.2.2)))
  | _, _ => []

/-- One recommendation entry (app.py lines 210-220), by category. -/
inductive RecEntry
  | layers (maxDepth target : Nat)
  | narrow (nm : String) (dr minTarget : Nat)
  | wide (nm : String) (dr maxTarget : Nat)
  | dupRole (mgr role : String) (count : Nat)
deriving DecidableEq

/-- `r.get('FullName', r['EmployeeID'])` (app.py lines 214, 217). -/
def dispName (r : AnnRow) : String :=
  r.base.fullName.getD r.base.employeeID

/-- The rendered recommendation text (message bodies of lines 212-220,
without the f-string quoting). -/
def renderRec : RecEntry → String
  | .layers md t =>
    r"Reduce layers: current max depth " ++ toString md ++
    r" exceeds target " ++ toString t ++
    r"; focus on middle layers for consolidation."
  | .narrow nm dr mn =>
    nm ++ r" has a narrow span of " ++ toString dr ++ r" (< " ++
    toString mn ++ r") - validate need for a distinct manager role or merge scope."
  | .wide nm dr mx =>
    nm ++ r" has " ++ toString dr ++ r" direct reports (> " ++
    toString mx ++ r") - consider adding a lead layer or splitting scope."
  | .dupRole m role c =>
    r"Manager " ++ m ++ r" has " ++ toString c ++ r" " ++ role ++
    r" roles - assess overlap or broaden job scopes."

/-- The recommendation builder (app.py lines 210-220): sequential appends —
the layer-exceedance entry, one entry per below-min manager, one per
above-max manager, then one per duplicate-title group of the first 20. -/
def buildRecs (w : Widgets) (md : Nat) (below above : List AnnRow)
    (dups : List (String × String × Nat)) : List RecEntry :=
  let r1 : List RecEntry :=
    if w.maxLayersTarget < md then [RecEntry.layers md w.maxLayersTarget]
    else []
  let r2 := below.foldl
    (fun acc r => acc ++ [RecEntry.narrow (dispName r) r.directReports w.minSpan]) r1
  let r3 := above.foldl
    (fun acc r => acc ++ [RecEntry.wide (dispName r) r.directReports w.maxSpan]) r2
  (dups.take 20).foldl
    (fun acc t => acc ++ [RecEntry.dupRole t.1 t.2.1 t.2.2]) r3

/-- Everything the dashboard consumes (app.py lines 144-225). -/
structure AppOutput where
  emp : List AnnRow
  headcount : Nat
  managerCount : Nat
  share : ℚ
  maxDepth : Nat
  below : List AnnRow
  above : List AnnRow
  single : List AnnRow
  dups : List (String × String × Nat)
  recs : List RecEntry
  shownRecs : List RecEntry
deriving DecidableEq

/-- The whole computation pass for one upload: `compute_metrics` followed
by the KPI/flag/recommendation section.  The flagged subsets and
recommendations use only the widget thresholds, exactly as the source does
(`min_span`, `max_span`, `max_layers_target` from the sidebar); the
session caches written by Principles seeding are never read back.
`shownRecs` is the display truncation `recs[:50]` (line 224). -/
def runApp (w : Widgets) (sess : Session) (s : Sheets) :
    Except AppError (AppOutput × Session) :=
  match s.employees with
  | none => .error .noEmployees
  | some emps =>
    match computeMetrics s sess with
    | .error e => .error e
    | .ok (emp, sess') =>
      match maxDepthKPI emp with
      | .error e => .error e
      | .ok md =>
        let bm := belowMin emp w.minSpan
        let am := aboveMax emp w.maxSpan
        let dt := dupTitles s.edges emps
        let rs := buildRecs w md bm am dt
        .ok ({ emp := emp, headcount := emp.length,
               managerCount := (managersOf emp).length,
               share := managerShare emp, maxDepth := md,
               below := bm, above := am, single := singleReport emp,
               dups := dt, recs := rs, shownRecs := rs.take 50 }, sess')

/-- Reachability from the root list along reporting pairs: exactly the
nodes the breadth-first traversal can visit. -/
inductive Reach (pairs : List (String × String)) (roots : List String) :
    String → Prop
  | root (r : String) : r ∈ roots → Reach pairs roots r
  | step (c p : String) : Reach pairs roots p → (c, p) ∈ pairs →
      Reach pairs roots c

/-- Modelled from the spec: the span-target parse as the spec describes it,
"<min>-<max>", extracting the leading digit runs from each side.  Used
only to compare the spec's description against the code's parse. -/
def leadingDigits (s : String) : String :=
  String.mk (s.data.takeWhile (fun c => c.isDigit))

/-- Leading digit run of `s` as a number, `none` when `s` does not start
with a digit. -/
def leadDigitsNat (s : String) : Option Nat :=
  match s.data.takeWhile (fun c => c.isDigit) with
  | [] => none
  | ds => some (digitsToNat ds)

/-- Modelled from the spec: span parse per the spec's words (leading digit
runs of the two sides of the first dash). -/
def specSpanTargets (tr : String) : Option (Nat × Nat) :=
  match splitChar '-' tr with
  | left :: right :: _ =>
    match leadDigitsNat left, leadDigitsNat right with
    | some mn, some mx => some (mn, mx)
    | _, _ => none
  | _ => none

/-- Category rank of a recommendation entry, in the order the code
appends them (layers, narrow, wide, duplicate titles). -/
def recCat : RecEntry → Nat
  | .layers _ _ => 0
  | .narrow _ _ _ => 1
  | .wide _ _ _ => 2
  | .dupRole _ _ _ => 3

/-- Concrete example roster from spec §8: A is the root, B and C report
to A, D reports to B.  The null manager of A is the `astype(str)` "nan". -/
def exRows : List EmpRow :=
  [⟨r"A", r"nan", none, r"CEO"⟩, ⟨r"B", r"A", none, r"VP"⟩,
   ⟨r"C", r"A", none, r"VP"⟩, ⟨r"D", r"B", none, r"IC"⟩]

/-- The example Employees table (ManagerID and JobRole columns present). -/
def exEmps : EmployeesTable := ⟨true, true, exRows⟩

/-- The same reporting lines as an explicit OrgEdges table. -/
def exEdges : List EdgeRow := [⟨r"B", r"A"⟩, ⟨r"C", r"A"⟩, ⟨r"D", r"B"⟩]

/-- Example Principles rows: span target "2-20", layer target 3. -/
def exPrinciples : List PrincipleRow :=
  [⟨r"Span of Control", r"2-20 reports"⟩, ⟨r"Layers", r"Max 3 layers"⟩]

/-- Example upload with a Principles sheet and no edge sheet. -/
def exSheetsPrinciples : Sheets := ⟨some exEmps, none, some exPrinciples⟩

/-- Employee A as annotated by the no-edge run: 2 direct reports,
manager, depth 0. -/
def annA : AnnRow := ⟨⟨r"A", r"nan", none, r"CEO"⟩, 2, true, 0⟩

/-- Employee B as annotated by the edge-table run: 1 direct report,
manager, depth 1. -/
def annB : AnnRow := ⟨⟨r"B", r"A", none, r"VP"⟩, 1, true, 1⟩

/-- Uniqueness of parents in an edge list: no employee id carries two
different managers (in-degree at most one; part of being a forest). -/
def UniqueParent (es : List EdgeRow) : Prop :=
  ∀ e ∈ es, ∀ e' ∈ es, e.employeeID = e'.employeeID →
    e.managerID = e'.managerID

/-- Acyclicity of the edge list, witnessed by a rank function that
strictly decreases from child to parent (a finite graph admits such a
ranking exactly when the manager relation has no cycles). -/
def EdgeAcyclic (es : List EdgeRow) : Prop :=
  ∃ rank : String → Nat, ∀ e ∈ es, rank e.managerID < rank e.employeeID

/-- Validity of the edge table relative to the roster: every node the
edges mention is a known employee id. -/
def EdgesCoverEmployees (es : List EdgeRow) (emps : EmployeesTable) : Prop :=
  ∀ e ∈ es, e.employeeID ∈ empIDs emps ∧ e.managerID ∈ empIDs emps

/-- Edge-local consistency of a depth assignment: an assigned child is one
deeper than its (assigned) parent. -/
def EdgeInv (ch : String → List String) (asg : String → Option Nat) : Prop :=
  ∀ p c vc, c ∈ ch p → asg c = some vc →
    ∃ vp, asg p = some vp ∧ vc = vp + 1

/-- Number of nodes of `U` still unassigned: the BFS loop measure. -/
def countNone (U : List String) (asg : String → Option Nat) : Nat :=
  U.countP (fun x => (asg x).isNone)

theorem contains_iff (l : List String) (a : String) :
    l.contains a = true ↔ a ∈ l := by
  simp [List.contains, List.elem_iff]

theorem mem_insertLe {α : Type} (le : α → α → Bool) (a x : α) (l : List α) :
    x ∈ insertLe le a l ↔ x = a ∨ x ∈ l := by
  induction l with
  | nil => simp [insertLe]
  | cons y ys ih =>
    by_cases h : le a y = true
    · rw [insertLe, if_pos h]
      simp [List.mem_cons]
    · rw [insertLe, if_neg h]
      simp only [List.mem_cons, ih]
      tauto

theorem mem_sortLe {α : Type} (le : α → α → Bool) (x : α) (l : List α) :
    x ∈ sortLe le l ↔ x ∈ l := by
  induction l with
  | nil => simp [sortLe]
  | cons y ys ih => simp [sortLe, mem_insertLe, ih]

theorem pairwise_insertLe {α : Type} (le : α → α → Bool)
    (htot : ∀ a b, le a b = true ∨ le b a = true)
    (htr : ∀ a b c, le a b = true → le b c = true → le a c = true)
    (a : α) (l : List α) (h : l.Pairwise (fun x y => le x y = true)) :
    (insertLe le a l).Pairwise (fun x y => le x y = true) := by
  induction l with
  | nil =>
    rw [insertLe]
    exact List.pairwise_singleton _ _
  | cons y ys ih =>
    rcases List.pairwise_cons.1 h with ⟨hy, hys⟩
    by_cases hle : le a y = true
    · rw [insertLe, if_pos hle]
      refine List.pairwise_cons.2 ⟨?_, h⟩
      intro b hb
      rcases List.mem_cons.1 hb with rfl | hb
      · exact hle
      · exact htr a y b hle (hy b hb)
    · rw [insertLe, if_neg hle]
      refine List.pairwise_cons.2 ⟨?_, ih hys⟩
      intro b hb
      rcases (mem_insertLe le a b ys).1 hb with heq | hb
      · subst heq
        exact (htot b y).resolve_left hle
      · exact hy b hb

theorem pairwise_sortLe {α : Type} (le : α → α → Bool)
    (htot : ∀ a b, le a b = true ∨ le b a = true)
    (htr : ∀ a b c, le a b = true → le b c = true → le a c = true)
    (l : List α) :
    (sortLe le l).Pairwise (fun x y => le x y = true) := by
  induction l with
  | nil => exact List.Pairwise.nil
  | cons y ys ih => exact pairwise_insertLe le htot htr y (sortLe le ys) ih

theorem pairwise_of_forall {α : Type} (R : α → α → Prop) (l : List α)
    (h : ∀ a b, R a b) : l.Pairwise R := by
  induction l with
  | nil => exact List.Pairwise.nil
  | cons x xs ih => exact List.pairwise_cons.2 ⟨fun b _ => h x b, ih⟩

theorem foldl_append_map {α β : Type} (f : α → β) (l : List α)
    (init : List β) :
    l.foldl (fun acc x => acc ++ [f x]) init = init ++ l.map f := by
  induction l generalizing init with
  | nil => simp
  | cons x xs ih => simp [List.foldl_cons, ih]

theorem mem_childrenOf (pairs : List (String × String)) (c m : String) :
    c ∈ childrenOf pairs m ↔ (c, m) ∈ pairs := by
  unfold childrenOf
  simp only [List.mem_dedup, List.mem_map, List.mem_filter, beq_iff_eq]
  constructor
  · rintro ⟨⟨a, b⟩, ⟨hmem, hb⟩, rfl⟩
    simp only at hb
    simpa [hb] using hmem
  · intro h
    exact ⟨(c, m), ⟨h, rfl⟩, rfl⟩

theorem mem_edgePairs (es : List EdgeRow) (c m : String) :
    (c, m) ∈ edgePairs es ↔
      ∃ e ∈ es, e.employeeID = c ∧ e.managerID = m := by
  simp [edgePairs, Prod.ext_iff]

theorem mem_empPairs (emps : EmployeesTable) (c m : String) :
    (c, m) ∈ empPairs emps ↔
      ∃ r ∈ emps.rows, r.employeeID = c ∧ r.managerID = m := by
  simp [empPairs, Prod.ext_iff]

theorem empPairs_fst (emps : EmployeesTable) :
    (empPairs emps).map Prod.fst = empIDs emps := by
  simp [empPairs, empIDs, List.map_map, Function.comp]

theorem countNone_mono_ptwise (U : List String)
    (a b : String → Option Nat)
    (h : ∀ y, (b y).isNone = true → (a y).isNone = true) :
    countNone U b ≤ countNone U a := by
  unfold countNone
  exact List.countP_mono_left (fun y _ hy => h y hy)

theorem countNone_le_length (U : List String) (asg : String → Option Nat) :
    countNone U asg ≤ U.length :=
  List.countP_le_length _

theorem countNone_update (U : List String) (asg : String → Option Nat)
    (x : String) (v : Nat) (hxU : x ∈ U) (hx : asg x = none) :
    countNone U (fun y => if y = x then some v else asg y) + 1 ≤
      countNone U asg := by
  unfold countNone
  beta_reduce
  induction U with
  | nil => cases hxU
  | cons u ut ih =>
    rw [List.countP_cons, List.countP_cons]
    by_cases hux : u = x
    · subst hux
      have hmono : List.countP
            (fun y => ((if y = u then some v else asg y) : Option Nat).isNone) ut ≤
          List.countP (fun y => (asg y).isNone) ut :=
        List.countP_mono_left (fun y _ hy => by
          by_cases hyu : y = u
          · simp [hyu] at hy
          · simpa [hyu] using hy)
      simp [hx]
      omega
    · rcases List.mem_cons.1 hxU with h | h
      · exact absurd h.symm hux
      · have := ih h
        simp only [if_neg hux]
        omega

theorem visitKids_fst (d1 : Nat) (ks : List String) :
    ∀ (asg : String → Option Nat) (x : String),
      (visitKids d1 ks asg).1 x = asg x ∨
        (asg x = none ∧ x ∈ ks ∧ (visitKids d1 ks asg).1 x = some d1 ∧
          x ∈ (visitKids d1 ks asg).2) := by
  induction ks with
  | nil => intro asg x; exact Or.inl rfl
  | cons c cs ih =>
    intro asg x
    cases hc : asg c with
    | some v =>
      simp only [visitKids, hc]
      rcases ih asg x with h | ⟨h1, h2, h3, h4⟩
      · exact Or.inl h
      · exact Or.inr ⟨h1, List.mem_cons_of_mem _ h2, h3, h4⟩
    | none =>
      simp only [visitKids, hc]
      by_cases hx : x = c
      · subst hx
        rcases ih (fun y => if y = x then some d1 else asg y) x with h | ⟨h1, _, _, _⟩
        · rw [h]
          simp only [if_pos rfl]
          exact Or.inr ⟨hc, List.mem_cons_self _ _, rfl, List.mem_cons_self _ _⟩
        · simp at h1
      · rcases ih (fun y => if y = c then some d1 else asg y) x with h | ⟨h1, h2, h3, h4⟩
        · left
          rw [h]
          simp [hx]
        · right
          refine ⟨by simpa [hx] using h1, List.mem_cons_of_mem _ h2, h3,
            List.mem_cons_of_mem _ h4⟩

theorem visitKids_mono (d1 : Nat) (ks : List String)
    (asg : String → Option Nat) (x : String) (v : Nat) (h : asg x = some v) :
    (visitKids d1 ks asg).1 x = some v := by
  rcases visitKids_fst d1 ks asg x with h1 | ⟨h1, _, _, _⟩
  · rw [h1, h]
  · rw [h] at h1
    cases h1

theorem visitKids_complete (d1 : Nat) (ks : List String) :
    ∀ (asg : String → Option Nat) (c : String), c ∈ ks →
      ((visitKids d1 ks asg).1 c).isSome := by
  induction ks with
  | nil => intro asg c hc; cases hc
  | cons k kt ih =>
    intro asg c hc
    cases hk : asg k with
    | some v =>
      simp only [visitKids, hk]
      rcases List.mem_cons.1 hc with rfl | hmem
      · rw [visitKids_mono d1 kt asg c v hk]
        rfl
      · exact ih asg c hmem
    | none =>
      simp only [visitKids, hk]
      rcases List.mem_cons.1 hc with rfl | hmem
      · rw [visitKids_mono d1 kt _ c d1 (by simp)]
        rfl
      · exact ih _ c hmem

theorem visitKids_snd (d1 : Nat) (ks : List String) :
    ∀ (asg : String → Option Nat) (x : String), x ∈ (visitKids d1 ks asg).2 →
      x ∈ ks ∧ asg x = none ∧ (visitKids d1 ks asg).1 x = some d1 := by
  induction ks with
  | nil => intro asg x hx; simp [visitKids] at hx
  | cons k kt ih =>
    intro asg x hx
    cases hk : asg k with
    | some v =>
      simp only [visitKids, hk] at hx ⊢
      rcases ih asg x hx with ⟨h1, h2, h3⟩
      exact ⟨List.mem_cons_of_mem _ h1, h2, h3⟩
    | none =>
      simp only [visitKids, hk] at hx ⊢
      rcases List.mem_cons.1 hx with rfl | hmem
      · exact ⟨List.mem_cons_self _ _, hk,
          visitKids_mono d1 kt _ x d1 (by simp)⟩
      · rcases ih _ x hmem with ⟨h1, h2, h3⟩
        have hxk : x ≠ k := by
          intro h
          rw [if_pos h] at h2
          cases h2
        refine ⟨List.mem_cons_of_mem _ h1, ?_, h3⟩
        rw [if_neg hxk] at h2
        exact h2

theorem visitKids_count (d1 : Nat) (U : List String) (ks : List String) :
    ∀ (asg : String → Option Nat), (∀ c ∈ ks, c ∈ U) →
      countNone U (visitKids d1 ks asg).1 + (visitKids d1 ks asg).2.length ≤
        countNone U asg := by
  induction ks with
  | nil => intro asg _; simp [visitKids]
  | cons k kt ih =>
    intro asg h
    cases hk : asg k with
    | some v =>
      simp only [visitKids, hk]
      exact ih asg (fun c hc => h c (List.mem_cons_of_mem _ hc))
    | none =>
      simp only [visitKids, hk, List.length_cons]
      have h1 := countNone_update U asg k d1 (h k (List.mem_cons_self _ _)) hk
      have h2 := ih (fun y => if y = k then some d1 else asg y)
        (fun c hc => h c (List.mem_cons_of_mem _ hc))
      omega

theorem bfsLoop_mono (ch : String → List String) (fuel : Nat) :
    ∀ (q : List String) (asg : String → Option Nat) (x : String) (v : Nat),
      asg x = some v → bfsLoop ch fuel q asg x = some v := by
  induction fuel with
  | zero => intro q asg x v h; exact h
  | succ f ih =>
    intro q asg x v h
    cases q with
    | nil => exact h
    | cons cur rest =>
      simp only [bfsLoop]
      exact ih _ _ x v (visitKids_mono _ _ _ x v h)

theorem bfsLoop_origin (ch : String → List String) (S : List String)
    (hSk : ∀ p c, c ∈ ch p → c ∈ S) (fuel : Nat) :
    ∀ (q : List String) (asg : String → Option Nat),
      (∀ y ∈ q, y ∈ S) →
      ∀ x, asg x = none → (bfsLoop ch fuel q asg x).isSome →
        ∃ p, p ∈ S ∧ x ∈ ch p := by
  induction fuel with
  | zero =>
    intro q asg _ x hx hsome
    rw [show bfsLoop ch 0 q asg = asg from rfl, hx] at hsome
    cases hsome
  | succ f ih =>
    intro q asg hq x hx hsome
    cases q with
    | nil =>
      rw [show bfsLoop ch (f + 1) [] asg = asg from rfl, hx] at hsome
      cases hsome
    | cons cur rest =>
      simp only [bfsLoop] at hsome
      by_cases hmid :
          (visitKids ((asg cur).getD 0 + 1) (ch cur) asg).1 x = none
      · refine ih _ _ (fun y hy => ?_) x hmid hsome
        rcases List.mem_append.1 hy with h | h
        · exact hq y (List.mem_cons_of_mem _ h)
        · exact hSk cur y (visitKids_snd _ _ asg y h).1
      · rcases visitKids_fst ((asg cur).getD 0 + 1) (ch cur) asg x with
          h | ⟨_, h2, _, _⟩
        · rw [hx] at h
          exact absurd h hmid
        · exact ⟨cur, hq cur (List.mem_cons_self _ _), h2⟩

theorem bfsLoop_reach (pairs : List (String × String)) (roots : List String)
    (ch : String → List String)
    (hchp : ∀ c p, c ∈ ch p → (c, p) ∈ pairs) (fuel : Nat) :
    ∀ (q : List String) (asg : String → Option Nat),
      (∀ y ∈ q, Reach pairs roots y) →
      ∀ x, asg x = none → (bfsLoop ch fuel q asg x).isSome →
        Reach pairs roots x := by
  induction fuel with
  | zero =>
    intro q asg _ x hx hsome
    rw [show bfsLoop ch 0 q asg = asg from rfl, hx] at hsome
    cases hsome
  | succ f ih =>
    intro q asg hq x hx hsome
    cases q with
    | nil =>
      rw [show bfsLoop ch (f + 1) [] asg = asg from rfl, hx] at hsome
      cases hsome
    | cons cur rest =>
      simp only [bfsLoop] at hsome
      by_cases hmid :
          (visitKids ((asg cur).getD 0 + 1) (ch cur) asg).1 x = none
      · refine ih _ _ (fun y hy => ?_) x hmid hsome
        rcases List.mem_append.1 hy with h | h
        · exact hq y (List.mem_cons_of_mem _ h)
        · have hyk := (visitKids_snd _ _ asg y h).1
          exact Reach.step y cur (hq cur (List.mem_cons_self _ _))
            (hchp y cur hyk)
      · rcases visitKids_fst ((asg cur).getD 0 + 1) (ch cur) asg x with
          h | ⟨_, h2, _, _⟩
        · rw [hx] at h
          exact absurd h hmid
        · exact Reach.step x cur (hq cur (List.mem_cons_self _ _))
            (hchp x cur h2)

theorem bfsLoop_closure (ch : String → List String)
    (hfun : ∀ c p q, c ∈ ch p → c ∈ ch q → p = q)
    (U : List String) (hU : ∀ p c, c ∈ ch p → c ∈ U) (fuel : Nat) :
    ∀ (q : List String) (asg : String → Option Nat),
      countNone U asg + q.length ≤ fuel →
      (∀ y ∈ q, (asg y).isSome) →
      EdgeInv ch asg →
      (∀ x, (asg x).isSome → x ∈ q ∨ ∀ c ∈ ch x, (asg c).isSome) →
      ((∀ x v, asg x = some v → bfsLoop ch fuel q asg x = some v) ∧
        EdgeInv ch (bfsLoop ch fuel q asg) ∧
        (∀ x, ((bfsLoop ch fuel q asg) x).isSome →
          ∀ c ∈ ch x, ((bfsLoop ch fuel q asg) c).isSome)) := by
  induction fuel with
  | zero =>
    intro q asg hfuel hq1 he hcl
    have hq : q = [] := by
      cases q with
      | nil => rfl
      | cons a b => simp at hfuel
    subst hq
    refine ⟨fun x v h => h, he, fun x hx c hc => ?_⟩
    rcases hcl x hx with h | h
    · cases h
    · exact h c hc
  | succ f ih =>
    intro q asg hfuel hq1 he hcl
    cases q with
    | nil =>
      refine ⟨fun x v h => h, he, fun x hx c hc => ?_⟩
      rcases hcl x hx with h | h
      · cases h
      · exact h c hc
    | cons cur rest =>
      rcases Option.isSome_iff_exists.1 (hq1 cur (List.mem_cons_self _ _)) with
        ⟨vcur, hcur⟩
      simp only [bfsLoop]
      have hd1 : (asg cur).getD 0 + 1 = vcur + 1 := by rw [hcur]; rfl
      rw [hd1]
      have hmono1 := visitKids_mono (vcur + 1) (ch cur) asg
      have hfst := visitKids_fst (vcur + 1) (ch cur) asg
      have hsnd := visitKids_snd (vcur + 1) (ch cur) asg
      have hcomp := visitKids_complete (vcur + 1) (ch cur) asg
      have hcount := visitKids_count (vcur + 1) U (ch cur) asg (hU cur)
      refine ?_
      have hfuel' : countNone U (visitKids (vcur + 1) (ch cur) asg).1 +
          (rest ++ (visitKids (vcur + 1) (ch cur) asg).2).length ≤ f := by
        rw [List.length_append]
        simp only [List.length_cons] at hfuel
        omega
      have hq1' : ∀ y ∈ rest ++ (visitKids (vcur + 1) (ch cur) asg).2,
          ((visitKids (vcur + 1) (ch cur) asg).1 y).isSome := by
        intro y hy
        rcases List.mem_append.1 hy with h | h
        · rcases Option.isSome_iff_exists.1
            (hq1 y (List.mem_cons_of_mem _ h)) with ⟨v, hv⟩
          rw [hmono1 y v hv]
          rfl
        · rw [(hsnd y h).2.2]
          rfl
      have he' : EdgeInv ch (visitKids (vcur + 1) (ch cur) asg).1 := by
        intro p c vc hchn hvc
        rcases hfst c with h | ⟨h1, h2, h3, _⟩
        · rw [h] at hvc
          rcases he p c vc hchn hvc with ⟨vp, hvp, hrel⟩
          exact ⟨vp, hmono1 p vp hvp, hrel⟩
        · have hpc : p = cur := hfun c p cur hchn h2
          subst hpc
          rw [h3] at hvc
          cases hvc
          exact ⟨vcur, hmono1 p vcur hcur, rfl⟩
      have hcl' : ∀ x, ((visitKids (vcur + 1) (ch cur) asg).1 x).isSome →
          x ∈ rest ++ (visitKids (vcur + 1) (ch cur) asg).2 ∨
            ∀ c ∈ ch x, ((visitKids (vcur + 1) (ch cur) asg).1 c).isSome := by
        intro x hx
        rcases hfst x with h | ⟨h1, h2, h3, h4⟩
        · rw [h] at hx
          rcases hcl x hx with hmem | hclosed
          · rcases List.mem_cons.1 hmem with rfl | hmem
            · exact Or.inr (fun c hc => hcomp c hc)
            · exact Or.inl (List.mem_append_left _ hmem)
          · refine Or.inr (fun c hc => ?_)
            rcases Option.isSome_iff_exists.1 (hclosed c hc) with ⟨v, hv⟩
            rw [hmono1 c v hv]
            rfl
        · exact Or.inl (List.mem_append_right _ h4)
      rcases ih _ _ hfuel' hq1' he' hcl' with ⟨ihm, ihe, ihc⟩
      exact ⟨fun x v h => ihm x v (hmono1 x v h), ihe, ihc⟩

theorem runRoots_mono (ch : String → List String) (fuel : Nat)
    (initKeys : List String) :
    ∀ (rootsL : List String) (asg : String → Option Nat) (x : String) (v : Nat),
      asg x = some v → runRoots ch fuel initKeys rootsL asg x = some v := by
  intro rootsL
  induction rootsL with
  | nil => intro asg x v h; exact h
  | cons r rs ih =>
    intro asg x v h
    simp only [runRoots]
    apply ih
    apply bfsLoop_mono
    by_cases hcond : (initKeys.contains r && (asg r).isNone) = true
    · rw [if_pos hcond]
      by_cases hxr : x = r
      · subst hxr
        rw [h] at hcond
        simp at hcond
      · rw [if_neg hxr]
        exact h
    · rw [if_neg hcond]
      exact h

theorem runRoots_origin (ch : String → List String) (S : List String)
    (hSk : ∀ p c, c ∈ ch p → c ∈ S) (fuel : Nat) (initKeys : List String) :
    ∀ (rootsL : List String) (asg : String → Option Nat),
      (∀ r ∈ rootsL, r ∈ S) →
      ∀ x, asg x = none →
        ((runRoots ch fuel initKeys rootsL asg) x).isSome →
        (∃ p, p ∈ S ∧ x ∈ ch p) ∨ x ∈ rootsL := by
  intro rootsL
  induction rootsL with
  | nil =>
    intro asg _ x hx hsome
    rw [show runRoots ch fuel initKeys [] asg = asg from rfl, hx] at hsome
    cases hsome
  | cons r rs ih =>
    intro asg hroots x hx hsome
    by_cases hxr : x = r
    · exact Or.inr (hxr ▸ List.mem_cons_self _ _)
    · simp only [runRoots] at hsome
      have hx1 : (if (initKeys.contains r && (asg r).isNone) = true
          then (fun y => if y = r then some 0 else asg y) else asg) x = none := by
        by_cases hcond : (initKeys.contains r && (asg r).isNone) = true
        · rw [if_pos hcond]
          simp only [if_neg hxr]
          exact hx
        · rw [if_neg hcond]
          exact hx
      by_cases hmid : (bfsLoop ch fuel [r]
          (if (initKeys.contains r && (asg r).isNone) = true
            then (fun y => if y = r then some 0 else asg y) else asg)) x = none
      · rcases ih _ (fun t ht => hroots t (List.mem_cons_of_mem _ ht))
          x hmid hsome with h | h
        · exact Or.inl h
        · exact Or.inr (List.mem_cons_of_mem _ h)
      · have := bfsLoop_origin ch S hSk fuel [r] _
          (fun y hy => by
            rcases List.mem_cons.1 hy with rfl | hy
            · exact hroots y (List.mem_cons_self _ _)
            · cases hy) x hx1 (Option.ne_none_iff_isSome.1 hmid)
        exact Or.inl this

theorem runRoots_reach (pairs : List (String × String)) (R : List String)
    (ch : String → List String)
    (hchp : ∀ c p, c ∈ ch p → (c, p) ∈ pairs) (fuel : Nat)
    (initKeys : List String) :
    ∀ (rootsL : List String) (asg : String → Option Nat),
      (∀ r ∈ rootsL, r ∈ R) →
      ∀ x, asg x = none →
        ((runRoots ch fuel initKeys rootsL asg) x).isSome →
        Reach pairs R x ∨ x ∈ rootsL := by
  intro rootsL
  induction rootsL with
  | nil =>
    intro asg _ x hx hsome
    rw [show runRoots ch fuel initKeys [] asg = asg from rfl, hx] at hsome
    cases hsome
  | cons r rs ih =>
    intro asg hroots x hx hsome
    by_cases hxr : x = r
    · exact Or.inr (hxr ▸ List.mem_cons_self _ _)
    · simp only [runRoots] at hsome
      have hx1 : (if (initKeys.contains r && (asg r).isNone) = true
          then (fun y => if y = r then some 0 else asg y) else asg) x = none := by
        by_cases hcond : (initKeys.contains r && (asg r).isNone) = true
        · rw [if_pos hcond]
          simp only [if_neg hxr]
          exact hx
        · rw [if_neg hcond]
          exact hx
      by_cases hmid : (bfsLoop ch fuel [r]
          (if (initKeys.contains r && (asg r).isNone) = true
            then (fun y => if y = r then some 0 else asg y) else asg)) x = none
      · rcases ih _ (fun t ht => hroots t (List.mem_cons_of_mem _ ht))
          x hmid hsome with h | h
        · exact Or.inl h
        · exact Or.inr (List.mem_cons_of_mem _ h)
      · refine Or.inl (bfsLoop_reach pairs R ch hchp fuel [r] _
          (fun y hy => ?_) x hx1 (Option.ne_none_iff_isSome.1 hmid))
        rcases List.mem_cons.1 hy with rfl | hy
        · exact Reach.root y (hroots y (List.mem_cons_self _ _))
        · cases hy

theorem runRoots_zero (ch : String → List String) (S : List String)
    (hSk : ∀ p c, c ∈ ch p → c ∈ S) (fuel : Nat) (initKeys : List String) :
    ∀ (rootsL : List String) (asg : String → Option Nat),
      (∀ r ∈ rootsL, r ∈ S) →
      (∀ x, (∀ p ∈ S, x ∉ ch p) → asg x = none ∨ asg x = some 0) →
      ∀ r, r ∈ rootsL → r ∈ initKeys → (∀ p ∈ S, r ∉ ch p) →
        runRoots ch fuel initKeys rootsL asg r = some 0 := by
  intro rootsL
  induction rootsL with
  | nil => intro asg _ _ r hr; cases hr
  | cons r0 rs ih =>
    intro asg hrootsS hA4 r hr hrK hrnc
    simp only [runRoots]
    have hqS : ∀ y ∈ [r0], y ∈ S := by
      intro y hy
      rcases List.mem_cons.1 hy with rfl | hy
      · exact hrootsS y (List.mem_cons_self _ _)
      · cases hy
    have hA41 : ∀ x, (∀ p ∈ S, x ∉ ch p) →
        (if (initKeys.contains r0 && (asg r0).isNone) = true
          then (fun y => if y = r0 then some 0 else asg y) else asg) x = none ∨
        (if (initKeys.contains r0 && (asg r0).isNone) = true
          then (fun y => if y = r0 then some 0 else asg y) else asg) x = some 0 := by
      intro x hxnc
      by_cases hcond : (initKeys.contains r0 && (asg r0).isNone) = true
      · rw [if_pos hcond]
        by_cases hxr : x = r0
        · right
          rw [if_pos hxr]
        · simp only [if_neg hxr]
          exact hA4 x hxnc
      · rw [if_neg hcond]
        exact hA4 x hxnc
    have hA42 : ∀ x, (∀ p ∈ S, x ∉ ch p) →
        (bfsLoop ch fuel [r0]
          (if (initKeys.contains r0 && (asg r0).isNone) = true
            then (fun y => if y = r0 then some 0 else asg y) else asg)) x = none ∨
        (bfsLoop ch fuel [r0]
          (if (initKeys.contains r0 && (asg r0).isNone) = true
            then (fun y => if y = r0 then some 0 else asg y) else asg)) x = some 0 := by
      intro x hxnc
      rcases hA41 x hxnc with h | h
      · by_cases h2 : (bfsLoop ch fuel [r0]
            (if (initKeys.contains r0 && (asg r0).isNone) = true
              then (fun y => if y = r0 then some 0 else asg y) else asg)) x = none
        · exact Or.inl h2
        · rcases bfsLoop_origin ch S hSk fuel [r0] _ hqS x h
            (Option.ne_none_iff_isSome.1 h2) with ⟨p, hpS, hpc⟩
          exact absurd hpc (hxnc p hpS)
      · exact Or.inr (bfsLoop_mono ch fuel [r0] _ x 0 h)
    rcases List.mem_cons.1 hr with rfl | hmem
    · have h0 : (if (initKeys.contains r && (asg r).isNone) = true
          then (fun y => if y = r then some 0 else asg y) else asg) r = some 0 := by
        rcases hA4 r hrnc with h | h
        · have hcont : initKeys.contains r = true := (contains_iff _ _).2 hrK
          have hcond : (initKeys.contains r && (asg r).isNone) = true := by
            rw [hcont, h]
            rfl
          rw [if_pos hcond, if_pos rfl]
        · by_cases hcond : (initKeys.contains r && (asg r).isNone) = true
          · rw [if_pos hcond, if_pos rfl]
          · rw [if_neg hcond]
            exact h
      have h2 : (bfsLoop ch fuel [r]
          (if (initKeys.contains r && (asg r).isNone) = true
            then (fun y => if y = r then some 0 else asg y) else asg)) r = some 0 :=
        bfsLoop_mono ch fuel [r] _ r 0 h0
      exact runRoots_mono ch fuel initKeys rs _ r 0 h2
    · exact ih _ (fun t ht => hrootsS t (List.mem_cons_of_mem _ ht)) hA42
        r hmem hrK hrnc

theorem runRoots_closure (ch : String → List String)
    (hfun : ∀ c p q, c ∈ ch p → c ∈ ch q → p = q)
    (U : List String) (hU : ∀ p c, c ∈ ch p → c ∈ U)
    (initKeys : List String) (hKU : ∀ k ∈ initKeys, k ∈ U) :
    ∀ (rootsL : List String) (asg : String → Option Nat),
      (∀ r ∈ rootsL, ∀ p, r ∉ ch p) →
      (∀ r ∈ rootsL, r ∈ initKeys) →
      EdgeInv ch asg →
      (∀ x, (asg x).isSome → ∀ c ∈ ch x, (asg c).isSome) →
      (∀ x, (∀ p, x ∉ ch p) → asg x = none ∨ asg x = some 0) →
      ((∀ x v, asg x = some v →
          runRoots ch (U.length + 1) initKeys rootsL asg x = some v) ∧
        EdgeInv ch (runRoots ch (U.length + 1) initKeys rootsL asg) ∧
        (∀ x, ((runRoots ch (U.length + 1) initKeys rootsL asg) x).isSome →
          ∀ c ∈ ch x, ((runRoots ch (U.length + 1) initKeys rootsL asg) c).isSome) ∧
        (∀ r, r ∈ rootsL → runRoots ch (U.length + 1) initKeys rootsL asg r = some 0)) := by
  intro rootsL
  induction rootsL with
  | nil =>
    intro asg _ _ he hcl _
    exact ⟨fun x v h => h, he, fun x hx c hc => hcl x hx c hc,
      fun r hr => absurd hr (List.not_mem_nil r)⟩
  | cons r0 rs ih =>
    intro asg hnc hrK he hcl hA4
    simp only [runRoots]
    set asg1 := (if (initKeys.contains r0 && (asg r0).isNone) = true
      then (fun y => if y = r0 then some 0 else asg y) else asg) with hasg1
    have hmono01 : ∀ x v, asg x = some v → asg1 x = some v := by
      intro x v h
      rw [hasg1]
      by_cases hcond : (initKeys.contains r0 && (asg r0).isNone) = true
      · rw [if_pos hcond]
        by_cases hxr : x = r0
        · subst hxr
          rw [h] at hcond
          simp at hcond
        · rw [if_neg hxr]
          exact h
      · rw [if_neg hcond]
        exact h
    have hr00 : asg1 r0 = some 0 := by
      rcases hA4 r0 (hnc r0 (List.mem_cons_self _ _)) with h | h
      · have hcont : initKeys.contains r0 = true :=
          (contains_iff _ _).2 (hrK r0 (List.mem_cons_self _ _))
        have hcond : (initKeys.contains r0 && (asg r0).isNone) = true := by
          rw [hcont, h]
          rfl
        rw [hasg1, if_pos hcond, if_pos rfl]
      · exact hmono01 r0 0 h
    have hq1 : ∀ y ∈ [r0], (asg1 y).isSome := by
      intro y hy
      rcases List.mem_cons.1 hy with rfl | hy
      · rw [hr00]
        rfl
      · cases hy
    have he1 : EdgeInv ch asg1 := by
      intro p c vc hchn hvc
      have hcr0 : c ≠ r0 := by
        intro h
        exact (hnc r0 (List.mem_cons_self _ _)) p (h ▸ hchn)
      have hvc' : asg c = some vc := by
        rw [hasg1] at hvc
        by_cases hcond : (initKeys.contains r0 && (asg r0).isNone) = true
        · rw [if_pos hcond, if_neg hcr0] at hvc
          exact hvc
        · rw [if_neg hcond] at hvc
          exact hvc
      rcases he p c vc hchn hvc' with ⟨vp, hvp, hrel⟩
      exact ⟨vp, hmono01 p vp hvp, hrel⟩
    have hcl1 : ∀ x, (asg1 x).isSome → x ∈ [r0] ∨
        ∀ c ∈ ch x, (asg1 c).isSome := by
      intro x hx
      by_cases hxr : x = r0
      · exact Or.inl (hxr ▸ List.mem_cons_self _ _)
      · have hx' : (asg x).isSome := by
          rw [hasg1] at hx
          by_cases hcond : (initKeys.contains r0 && (asg r0).isNone) = true
          · rw [if_pos hcond, if_neg hxr] at hx
            exact hx
          · rw [if_neg hcond] at hx
            exact hx
        refine Or.inr (fun c hc => ?_)
        rcases Option.isSome_iff_exists.1 (hcl x hx' c hc) with ⟨v, hv⟩
        rw [hmono01 c v hv]
        rfl
    have hfuel : countNone U asg1 + ([r0] : List String).length ≤ U.length + 1 := by
      have := countNone_le_length U asg1
      simp only [List.length_cons, List.length_nil]
      omega
    rcases bfsLoop_closure ch hfun U hU (U.length + 1) [r0] asg1 hfuel hq1 he1 hcl1
      with ⟨hm2, he2, hcl2⟩
    set asg2 := bfsLoop ch (U.length + 1) [r0] asg1 with hasg2
    have hA42 : ∀ x, (∀ p, x ∉ ch p) → asg2 x = none ∨ asg2 x = some 0 := by
      intro x hxnc
      have hA41 : asg1 x = none ∨ asg1 x = some 0 := by
        by_cases hxr : x = r0
        · exact Or.inr (hxr ▸ hr00)
        · rw [hasg1]
          by_cases hcond : (initKeys.contains r0 && (asg r0).isNone) = true
          · rw [if_pos hcond]
            simp only [if_neg hxr]
            exact hA4 x hxnc
          · rw [if_neg hcond]
            exact hA4 x hxnc
      rcases hA41 with h | h
      · by_cases h2 : asg2 x = none
        · exact Or.inl h2
        · rcases bfsLoop_origin ch U hU (U.length + 1) [r0] asg1
            (fun y hy => by
              rcases List.mem_cons.1 hy with rfl | hy
              · exact hKU y (hrK y (List.mem_cons_self _ _))
              · cases hy) x h (Option.ne_none_iff_isSome.1 h2) with ⟨p, _, hpc⟩
          exact absurd hpc (hxnc p)
      · exact Or.inr (hm2 x 0 h)
    have hcl2' : ∀ x, (asg2 x).isSome → ∀ c ∈ ch x, (asg2 c).isSome :=
      fun x hx c hc => hcl2 x hx c hc
    rcases ih asg2 (fun t ht => hnc t (List.mem_cons_of_mem _ ht))
      (fun t ht => hrK t (List.mem_cons_of_mem _ ht)) he2 hcl2' hA42 with
      ⟨ihm, ihe, ihc, ihz⟩
    refine ⟨fun x v h => ihm x v (hm2 x v (hmono01 x v h)), ihe, ihc, ?_⟩
    intro r hr
    rcases List.mem_cons.1 hr with rfl | hmem
    · exact ihm r 0 (hm2 r 0 hr00)
    · exact ihz r hmem

theorem mem_edgeRoots (pairs : List (String × String)) (r : String) :
    r ∈ edgeRoots pairs ↔
      r ∈ pairs.map Prod.snd ∧ r ∉ pairs.map Prod.fst := by
  unfold edgeRoots
  rw [mem_sortLe, List.mem_dedup, List.mem_filter]
  constructor
  · rintro ⟨h1, h2⟩
    refine ⟨h1, fun hmem => ?_⟩
    rw [Bool.not_eq_true', ← Bool.not_eq_true] at h2
    exact h2 ((contains_iff _ _).2 hmem)
  · rintro ⟨h1, h2⟩
    refine ⟨h1, ?_⟩
    rw [Bool.not_eq_true', ← Bool.not_eq_true]
    intro hc
    exact h2 ((contains_iff _ _).1 hc)

theorem mem_rootsNoEdges (emps : EmployeesTable) (r : String) :
    r ∈ rootsNoEdges emps ↔
      ∃ row ∈ emps.rows, row.employeeID = r ∧
        row.managerID ∉ empIDs emps := by
  unfold rootsNoEdges
  rw [List.mem_dedup, List.mem_map]
  constructor
  · rintro ⟨row, hrow, rfl⟩
    rcases List.mem_filter.1 hrow with ⟨h1, h2⟩
    refine ⟨row, h1, rfl, fun hmem => ?_⟩
    rw [Bool.not_eq_true', ← Bool.not_eq_true] at h2
    exact h2 ((contains_iff _ _).2 hmem)
  · rintro ⟨row, hrow, rfl, hnm⟩
    refine ⟨row, List.mem_filter.2 ⟨hrow, ?_⟩, rfl⟩
    rw [Bool.not_eq_true', ← Bool.not_eq_true]
    intro hc
    exact hnm ((contains_iff _ _).1 hc)

theorem reach_mem (pairs : List (String × String)) (roots : List String)
    (x : String) (h : Reach pairs roots x) :
    x ∈ roots ∨ x ∈ pairs.map Prod.fst := by
  induction h with
  | root r hr => exact Or.inl hr
  | step c p hp hcp ih => exact Or.inr (List.mem_map.2 ⟨(c, p), hcp, rfl⟩)

theorem depthMap_edges (emps : EmployeesTable) (es : List EdgeRow)
    (H0 : EdgesCoverEmployees es emps) (H1 : UniqueParent es) :
    (∀ r ∈ edgeRoots (edgePairs es),
      computeDepthMap (edgePairs es) (empIDs emps)
        (edgeRoots (edgePairs es)) r = some 0) ∧
    EdgeInv (childrenOf (edgePairs es))
      (computeDepthMap (edgePairs es) (empIDs emps)
        (edgeRoots (edgePairs es))) ∧
    (∀ x, Reach (edgePairs es) (edgeRoots (edgePairs es)) x →
      ((computeDepthMap (edgePairs es) (empIDs emps)
        (edgeRoots (edgePairs es))) x).isSome) := by
  have hfun : ∀ c p q, c ∈ childrenOf (edgePairs es) p →
      c ∈ childrenOf (edgePairs es) q → p = q := by
    intro c p q hp hq
    rcases (mem_edgePairs es c p).1 ((mem_childrenOf _ c p).1 hp) with
      ⟨e, he, he1, he2⟩
    rcases (mem_edgePairs es c q).1 ((mem_childrenOf _ c q).1 hq) with
      ⟨f, hf, hf1, hf2⟩
    rw [← he2, ← hf2]
    exact H1 e he f hf (he1.trans hf1.symm)
  have hU : ∀ p c, c ∈ childrenOf (edgePairs es) p →
      c ∈ depthUniverse (edgePairs es) (empIDs emps) := by
    intro p c hc
    have : (c, p) ∈ edgePairs es := (mem_childrenOf _ c p).1 hc
    unfold depthUniverse
    rw [List.mem_dedup, List.mem_append, List.mem_append]
    exact Or.inl (Or.inr (List.mem_map.2 ⟨(c, p), this, rfl⟩))
  have hKU : ∀ k ∈ empIDs emps,
      k ∈ depthUniverse (edgePairs es) (empIDs emps) := by
    intro k hk
    unfold depthUniverse
    rw [List.mem_dedup, List.mem_append, List.mem_append]
    exact Or.inl (Or.inl hk)
  have hnc : ∀ r ∈ edgeRoots (edgePairs es),
      ∀ p, r ∉ childrenOf (edgePairs es) p := by
    intro r hr p hmem
    rcases (mem_edgeRoots _ r).1 hr with ⟨_, hnf⟩
    exact hnf (List.mem_map.2 ⟨(r, p), (mem_childrenOf _ r p).1 hmem, rfl⟩)
  have hrK : ∀ r ∈ edgeRoots (edgePairs es), r ∈ empIDs emps := by
    intro r hr
    rcases (mem_edgeRoots _ r).1 hr with ⟨hs, _⟩
    rcases List.mem_map.1 hs with ⟨⟨a, b⟩, hab, rfl⟩
    rcases (mem_edgePairs es a b).1 hab with ⟨e, he, _, he2⟩
    exact he2 ▸ (H0 e he).2
  rcases runRoots_closure (childrenOf (edgePairs es)) hfun
    (depthUniverse (edgePairs es) (empIDs emps)) hU (empIDs emps) hKU
    (edgeRoots (edgePairs es)) (fun _ => none) hnc hrK
    (fun p c vc _ h => by cases h) (fun x h => by cases h)
    (fun x _ => Or.inl rfl) with ⟨_, he, hcl, hz⟩
  refine ⟨fun r hr => hz r hr, he, ?_⟩
  intro x hx
  induction hx with
  | root r hr =>
    rw [show computeDepthMap (edgePairs es) (empIDs emps)
      (edgeRoots (edgePairs es)) r =
        runRoots (childrenOf (edgePairs es))
          ((depthUniverse (edgePairs es) (empIDs emps)).length + 1)
          (empIDs emps) (edgeRoots (edgePairs es)) (fun _ => none) r from rfl,
      hz r hr]
    rfl
  | step c p _ hcp ihp =>
    exact hcl p ihp c ((mem_childrenOf _ c p).2 hcp)

theorem depthMap_noEdges_zero (emps : EmployeesTable)
    (hNodup : (empIDs emps).Nodup) (row : EmpRow) (hrow : row ∈ emps.rows)
    (hmgr : row.managerID ∉ empIDs emps) :
    computeDepthMap (empPairs emps) (empIDs emps) (rootsNoEdges emps)
      row.employeeID = some 0 := by
  have hSk : ∀ p c, c ∈ childrenOf (empPairs emps) p → c ∈ empIDs emps := by
    intro p c hc
    rcases (mem_empPairs emps c p).1 ((mem_childrenOf _ c p).1 hc) with
      ⟨r, hr, hr1, _⟩
    exact hr1 ▸ List.mem_map.2 ⟨r, hr, rfl⟩
  have hrootsS : ∀ t ∈ rootsNoEdges emps, t ∈ empIDs emps := by
    intro t ht
    rcases (mem_rootsNoEdges emps t).1 ht with ⟨r, hr, hr1, _⟩
    exact hr1 ▸ List.mem_map.2 ⟨r, hr, rfl⟩
  have hrmem : row.employeeID ∈ rootsNoEdges emps :=
    (mem_rootsNoEdges emps _).2 ⟨row, hrow, rfl, hmgr⟩
  have hrK : row.employeeID ∈ empIDs emps := List.mem_map.2 ⟨row, hrow, rfl⟩
  have hrnc : ∀ p ∈ empIDs emps,
      row.employeeID ∉ childrenOf (empPairs emps) p := by
    intro p hpS hmem
    rcases (mem_empPairs emps _ p).1 ((mem_childrenOf _ _ p).1 hmem) with
      ⟨row2, hrow2, h1, h2⟩
    have : row2 = row :=
      List.inj_on_of_nodup_map hNodup hrow2 hrow h1
    rw [this] at h2
    exact hmgr (h2 ▸ hpS)
  exact runRoots_zero (childrenOf (empPairs emps)) (empIDs emps) hSk
    ((depthUniverse (empPairs emps) (empIDs emps)).length + 1)
    (empIDs emps) (rootsNoEdges emps) (fun _ => none) hrootsS
    (fun x _ => Or.inl rfl) row.employeeID hrmem hrK hrnc

theorem depthMap_noEdges_unreached (emps : EmployeesTable) (id : String)
    (hnr : ¬ Reach (empPairs emps) (rootsNoEdges emps) id) :
    computeDepthMap (empPairs emps) (empIDs emps) (rootsNoEdges emps) id =
      none := by
  by_cases h : computeDepthMap (empPairs emps) (empIDs emps)
      (rootsNoEdges emps) id = none
  · exact h
  · exfalso
    rcases runRoots_reach (empPairs emps) (rootsNoEdges emps)
      (childrenOf (empPairs emps))
      (fun c p hc => (mem_childrenOf _ c p).1 hc)
      ((depthUniverse (empPairs emps) (empIDs emps)).length + 1)
      (empIDs emps) (rootsNoEdges emps) (fun _ => none)
      (fun r hr => hr) id rfl (Option.ne_none_iff_isSome.1 h) with hre | hin
    · exact hnr hre
    · exact hnr (Reach.root id hin)

/-- C1: for every input where a valid edge table defines a forest (all edge
endpoints are known employee ids, each employee has at most one manager,
and the manager relation is acyclic), the depth computed by the
breadth-first traversal satisfies depth(root) = 0 for every root and
depth(child) = depth(parent) + 1 for every edge, for all nodes reachable
from a root. -/
theorem c1_forest_depth (emps : EmployeesTable) (es : List EdgeRow)
    (H0 : EdgesCoverEmployees es emps) (H1 : UniqueParent es)
    (_H2 : EdgeAcyclic es) :
    (∀ r ∈ edgeRoots (edgePairs es), empDepth emps (some es) r = 0) ∧
    (∀ e ∈ es, Reach (edgePairs es) (edgeRoots (edgePairs es)) e.managerID →
      empDepth emps (some es) e.employeeID =
        empDepth emps (some es) e.managerID + 1) := by
  rcases depthMap_edges emps es H0 H1 with ⟨hz, he, hcompl⟩
  constructor
  · intro r hr
    show ((computeDepthMap (edgePairs es) (empIDs emps)
      (edgeRoots (edgePairs es))) r).getD 0 = 0
    rw [hz r hr]
    rfl
  · intro e hes hreach
    rcases Option.isSome_iff_exists.1 (hcompl _ hreach) with ⟨vp, hvp⟩
    have hcp : (e.employeeID, e.managerID) ∈ edgePairs es :=
      List.mem_map.2 ⟨e, hes, rfl⟩
    have hreachc : Reach (edgePairs es) (edgeRoots (edgePairs es))
        e.employeeID := Reach.step _ _ hreach hcp
    rcases Option.isSome_iff_exists.1 (hcompl _ hreachc) with ⟨vc, hvc⟩
    rcases he e.managerID e.employeeID vc
      ((mem_childrenOf _ _ _).2 hcp) hvc with ⟨vp2, hvp2, hrel⟩
    have hveq : vp2 = vp := by
      rw [hvp2] at hvp
      exact Option.some.inj hvp
    show ((computeDepthMap (edgePairs es) (empIDs emps)
        (edgeRoots (edgePairs es))) e.employeeID).getD 0 =
      ((computeDepthMap (edgePairs es) (empIDs emps)
        (edgeRoots (edgePairs es))) e.managerID).getD 0 + 1
    rw [hvc, hvp2]
    simp only [Option.getD_some]
    omega

/-- Witness for C1 at the four-employee forest example. -/
theorem c1_witness :
    empDepth exEmps (some exEdges) r"A" = 0 ∧
    empDepth exEmps (some exEdges) r"D" =
      empDepth exEmps (some exEdges) r"B" + 1 := by
  have h := c1_forest_depth exEmps exEdges
    (by unfold EdgesCoverEmployees; decide)
    (by unfold UniqueParent; decide)
    ⟨fun t => if t = r"A" then 0 else if t = r"B" then 1 else 2, by decide⟩
  refine ⟨h.1 (r"A") (by decide), ?_⟩
  have hreach : Reach (edgePairs exEdges) (edgeRoots (edgePairs exEdges))
      (r"B") :=
    Reach.step (r"B") (r"A") (Reach.root (r"A") (by decide)) (by decide)
  exact h.2 ⟨r"D", r"B"⟩ (by decide) hreach

/-- C3: with no edge table and unique employee ids, every employee whose
manager id is null/absent (the `astype(str)` value "nan") or unmatched by
any employee id is treated as a root with depth 0; every employee never
reached by the traversal gets depth 0 as a fallback; and this input shape
is not an error: `compute_metrics` succeeds. -/
theorem c3_no_edge_fallbacks (emps : EmployeesTable)
    (hNodup : (empIDs emps).Nodup) :
    (∀ row ∈ emps.rows, row.managerID ∉ empIDs emps →
      empDepth emps none row.employeeID = 0) ∧
    (∀ id, ¬ Reach (empPairs emps) (rootsNoEdges emps) id →
      empDepth emps none id = 0) ∧
    (∀ (sess : Session) (p? : Option (List PrincipleRow)),
      emps.hasManagerID = true →
      computeMetrics ⟨some emps, none, p?⟩ sess =
        .ok (annotateEmp emps none, seedSession p? sess)) := by
  refine ⟨?_, ?_, ?_⟩
  · intro row hrow hmgr
    show ((computeDepthMap (empPairs emps) (empIDs emps)
      (rootsNoEdges emps)) row.employeeID).getD 0 = 0
    rw [depthMap_noEdges_zero emps hNodup row hrow hmgr]
    rfl
  · intro id hnr
    show ((computeDepthMap (empPairs emps) (empIDs emps)
      (rootsNoEdges emps)) id).getD 0 = 0
    rw [depthMap_noEdges_unreached emps id hnr]
    rfl
  · intro sess p? hMgr
    simp [computeMetrics, hMgr]

/-- Witness for C3: in the example roster, A (manager "nan", matching no
employee) gets depth 0, and a disconnected id never reached by the
traversal falls back to depth 0. -/
theorem c3_witness :
    empDepth exEmps none r"A" = 0 ∧ empDepth exEmps none r"Z" = 0 := by
  have h := c3_no_edge_fallbacks exEmps (by decide)
  refine ⟨h.1 ⟨r"A", r"nan", none, r"CEO"⟩ (by decide) (by decide), ?_⟩
  refine h.2.1 (r"Z") (fun hre => ?_)
  rcases reach_mem _ _ _ hre with hin | hin
  · revert hin
    decide
  · revert hin
    decide

theorem computeMetrics_ok (s : Sheets) (sess : Session)
    (emp : List AnnRow) (sess' : Session)
    (h : computeMetrics s sess = .ok (emp, sess')) :
    ∃ emps, s.employees = some emps ∧ emp = annotateEmp emps s.edges ∧
      sess' = seedSession s.principles sess := by
  rcases s with ⟨e?, ed?, p?⟩
  cases e? with
  | none => simp [computeMetrics] at h
  | some emps =>
    cases ed? with
    | some es =>
      simp only [computeMetrics, Except.ok.injEq, Prod.mk.injEq] at h
      exact ⟨emps, rfl, h.1.symm, h.2.symm⟩
    | none =>
      by_cases hm : emps.hasManagerID = true
      · simp only [computeMetrics, hm, if_pos, Except.ok.injEq,
          Prod.mk.injEq] at h
        exact ⟨emps, rfl, h.1.symm, h.2.symm⟩
      · simp [computeMetrics, hm] at h

/-- C2: for every employee, the derived direct-report count equals the
number of rows of the chosen reporting source (the edge table when
present, otherwise the employee table) whose manager id is that employee
id, and equals 0 when the id never appears as a manager. -/
theorem c2_direct_report_counts (s : Sheets) (sess : Session)
    (emp : List AnnRow) (sess' : Session) (emps : EmployeesTable)
    (hok : computeMetrics s sess = .ok (emp, sess'))
    (hemps : s.employees = some emps) :
    ∀ row ∈ emp,
      row.directReports =
        ((reportingPairs emps s.edges).filter
          (fun pr => pr.2 == row.base.employeeID)).length ∧
      ((∀ pr ∈ reportingPairs emps s.edges,
          pr.2 ≠ row.base.employeeID) → row.directReports = 0) := by
  rcases computeMetrics_ok s sess emp sess' hok with ⟨emps2, he2, hemp, _⟩
  have hee : emps2 = emps := by
    rw [he2] at hemps
    exact Option.some.inj hemps
  subst hee
  subst hemp
  intro row hrow
  rcases List.mem_map.1 hrow with ⟨r, _, hr⟩
  constructor
  · rw [← hr]
    rfl
  · intro hnone
    rw [← hr]
    show (List.filter (fun pr => pr.2 == r.employeeID)
      (reportingPairs emps2 s.edges)).length = 0
    rw [List.length_eq_zero, List.filter_eq_nil_iff]
    intro pr hpr
    have := hnone pr hpr
    rw [← hr] at this
    simp only [beq_iff_eq]
    exact this

/-- Witness for C2: employee A of the example has exactly the two edge
rows naming it as manager. -/
theorem c2_witness :
    (⟨⟨r"A", r"nan", none, r"CEO"⟩, 2, true, 0⟩ : AnnRow).directReports =
      ((reportingPairs exEmps (some exEdges)).filter
        (fun pr => pr.2 == r"A")).length := by
  have h := c2_direct_report_counts ⟨some exEmps, some exEdges, none⟩
    sessionStart (annotateEmp exEmps (some exEdges)) sessionStart exEmps
    rfl rfl
  exact (h ⟨⟨r"A", r"nan", none, r"CEO"⟩, 2, true, 0⟩ (by decide)).1

theorem dupTitles_sorted (edges? : Option (List EdgeRow))
    (emps : EmployeesTable) :
    (dupTitles edges? emps).Pairwise (fun a b => b.2.2 ≤ a.2.2) := by
  cases edges? with
  | none => simp [dupTitles]
  | some es =>
    by_cases hj : emps.hasJobRole = true
    · simp only [dupTitles, hj]
      refine List.Pairwise.imp (fun h => of_decide_eq_true h) ?_
      exact pairwise_sortLe
        (fun (a b : String × String × Nat) => decide (b.2.2 ≤ a.2.2))
        (fun a b => by
          rcases Nat.le_total b.2.2 a.2.2 with h | h
          · exact Or.inl (decide_eq_true h)
          · exact Or.inr (decide_eq_true h))
        (fun a b c h1 h2 => decide_eq_true
          (Nat.le_trans (of_decide_eq_true h2) (of_decide_eq_true h1)))
        _
    · have hj' : emps.hasJobRole = false := by
        cases h : emps.hasJobRole
        · rfl
        · exact absurd h hj
      simp [dupTitles, hj']

/-- C7: duplicate-title detection groups the joined subordinates by
(managerId, jobRole), keeps only groups with count at least 2, sorts them
descending by count, and yields the empty list whenever the edge table or
the job-role column is absent — it never errors. -/
theorem c7_dup_titles (edges? : Option (List EdgeRow))
    (emps : EmployeesTable) :
    ((edges? = none ∨ emps.hasJobRole = false) →
      dupTitles edges? emps = []) ∧
    (dupTitles edges? emps).Pairwise (fun a b => b.2.2 ≤ a.2.2) ∧
    (∀ t ∈ dupTitles edges? emps, 2 ≤ t.2.2) ∧
    (∀ es, edges? = some es → emps.hasJobRole = true →
      ∀ t ∈ dupTitles edges? emps,
        t.2.2 = ((childRolePairs es emps.rows).filter
          (fun p => p == (t.1, t.2.1))).length ∧
        (t.1, t.2.1) ∈ (childRolePairs es emps.rows).dedup) := by
  refine ⟨?_, dupTitles_sorted edges? emps, ?_, ?_⟩
  · rintro (h | h)
    · subst h
      rfl
    · cases edges? with
      | none => rfl
      | some es => simp [dupTitles, h]
  · intro t ht
    cases edges? with
    | none => simp [dupTitles] at ht
    | some es =>
      by_cases hj : emps.hasJobRole = true
      · simp only [dupTitles, hj] at ht
        rw [mem_sortLe] at ht
        rcases List.mem_filter.1 ht with ⟨_, h2⟩
        exact of_decide_eq_true h2
      · have hj' : emps.hasJobRole = false := by
          cases h : emps.hasJobRole
          · rfl
          · exact absurd h hj
        simp [dupTitles, hj'] at ht
  · intro es hes hj t ht
    subst hes
    simp only [dupTitles, hj] at ht
    rw [mem_sortLe] at ht
    rcases List.mem_filter.1 ht with ⟨h1, _⟩
    rcases List.mem_map.1 h1 with ⟨k, hk, hkt⟩
    rw [mem_sortLe, List.mem_dedup] at hk
    constructor
    · rw [← hkt]
    · rw [← hkt]
      rw [List.mem_dedup]
      exact hk

/-- Witness for C7: both prerequisite failures produce the empty list. -/
theorem c7_witness :
    dupTitles none exEmps = [] ∧
    dupTitles (some exEdges) ⟨true, false, exRows⟩ = [] :=
  ⟨(c7_dup_titles none exEmps).1 (Or.inl rfl),
    (c7_dup_titles (some exEdges) ⟨true, false, exRows⟩).1 (Or.inr rfl)⟩

/-- C9: the manager ratio is managers divided by headcount when the
headcount is positive and 0 when the headcount is zero, with no
division-by-zero fault. -/
theorem c9_manager_share (emp : List AnnRow) :
    (emp.length = 0 → managerShare emp = 0) ∧
    (emp.length ≠ 0 →
      managerShare emp =
        ((managersOf emp).length : ℚ) / (emp.length : ℚ) ∧
      managerShare emp * (emp.length : ℚ) =
        ((managersOf emp).length : ℚ)) := by
  constructor
  · intro h
    simp [managerShare, h]
  · intro h
    have h1 : managerShare emp =
        ((managersOf emp).length : ℚ) / (emp.length : ℚ) := by
      simp [managerShare, h]
    refine ⟨h1, ?_⟩
    rw [h1, div_mul_cancel₀]
    exact Nat.cast_ne_zero.mpr h

/-- Witness for C9: the empty roster yields ratio 0; the example yields
2 managers out of 4. -/
theorem c9_witness :
    managerShare [] = 0 ∧
    managerShare (annotateEmp exEmps (some exEdges)) * 4 = 2 := by
  refine ⟨(c9_manager_share []).1 rfl, ?_⟩
  have h := ((c9_manager_share (annotateEmp exEmps (some exEdges))).2
    (by decide)).2
  have hlen : (annotateEmp exEmps (some exEdges)).length = 4 := by decide
  have hm : (managersOf (annotateEmp exEmps (some exEdges))).length = 2 := by
    decide
  rw [hlen, hm] at h
  norm_num at h
  exact h

/-- C10: for min-span at most max-span, the below-min and above-max
flagged subsets are disjoint. -/
theorem c10_disjoint_flags (emp : List AnnRow) (mn mx : Nat) (h : mn ≤ mx) :
    ∀ rw ∈ belowMin emp mn, rw ∉ aboveMax emp mx := by
  intro rw hb ha
  rcases List.mem_filter.1 hb with ⟨_, hb2⟩
  rcases List.mem_filter.1 ha with ⟨_, ha2⟩
  have hb3 := of_decide_eq_true hb2
  have ha3 := of_decide_eq_true ha2
  omega

/-- Witness for C10: B is below the default min span, hence not above the
default max span. -/
theorem c10_witness :
    annB ∉ aboveMax (annotateEmp exEmps (some exEdges)) 12 :=
  c10_disjoint_flags (annotateEmp exEmps (some exEdges)) 4 12 (by decide)
    annB (by decide)

/-- C4: the recommendation list is built in the fixed order:
layer-exceedance entry (exactly when max depth exceeds the layer target),
one entry per below-min-span manager, one entry per above-max-span
manager, then up to 20 duplicate-title entries with highest count first;
the category order is monotone along the list and the display truncation
to the first 50 entries preserves it. -/
theorem c4_rec_order (w : Widgets) (md : Nat) (emp : List AnnRow)
    (edges? : Option (List EdgeRow)) (emps : EmployeesTable) :
    buildRecs w md (belowMin emp w.minSpan) (aboveMax emp w.maxSpan)
        (dupTitles edges? emps) =
      (if w.maxLayersTarget < md
        then [RecEntry.layers md w.maxLayersTarget] else []) ++
      (belowMin emp w.minSpan).map
        (fun x => RecEntry.narrow (dispName x) x.directReports w.minSpan) ++
      (aboveMax emp w.maxSpan).map
        (fun x => RecEntry.wide (dispName x) x.directReports w.maxSpan) ++
      ((dupTitles edges? emps).take 20).map
        (fun t => RecEntry.dupRole t.1 t.2.1 t.2.2) ∧
    (buildRecs w md (belowMin emp w.minSpan) (aboveMax emp w.maxSpan)
        (dupTitles edges? emps)).Pairwise
      (fun a b => recCat a ≤ recCat b) ∧
    ((buildRecs w md (belowMin emp w.minSpan) (aboveMax emp w.maxSpan)
        (dupTitles edges? emps)).take 50).Pairwise
      (fun a b => recCat a ≤ recCat b) ∧
    (((dupTitles edges? emps).take 20).map
      (fun t => RecEntry.dupRole t.1 t.2.1 t.2.2)).length ≤ 20 ∧
    ((dupTitles edges? emps).take 20).Pairwise
      (fun a b => b.2.2 ≤ a.2.2) := by
  have hdecomp : buildRecs w md (belowMin emp w.minSpan)
      (aboveMax emp w.maxSpan) (dupTitles edges? emps) =
      (if w.maxLayersTarget < md
        then [RecEntry.layers md w.maxLayersTarget] else []) ++
      (belowMin emp w.minSpan).map
        (fun x => RecEntry.narrow (dispName x) x.directReports w.minSpan) ++
      (aboveMax emp w.maxSpan).map
        (fun x => RecEntry.wide (dispName x) x.directReports w.maxSpan) ++
      ((dupTitles edges? emps).take 20).map
        (fun t => RecEntry.dupRole t.1 t.2.1 t.2.2) := by
    unfold buildRecs
    rw [foldl_append_map, foldl_append_map, foldl_append_map]
  have hA : ∀ x ∈ (if w.maxLayersTarget < md
      then [RecEntry.layers md w.maxLayersTarget] else []), recCat x = 0 := by
    intro x hx
    by_cases hc : w.maxLayersTarget < md
    · rw [if_pos hc] at hx
      rcases List.mem_singleton.1 hx with rfl
      rfl
    · rw [if_neg hc] at hx
      cases hx
  have hB : ∀ x ∈ (belowMin emp w.minSpan).map
      (fun x => RecEntry.narrow (dispName x) x.directReports w.minSpan),
      recCat x = 1 := by
    intro x hx
    rcases List.mem_map.1 hx with ⟨y, _, rfl⟩
    rfl
  have hC : ∀ x ∈ (aboveMax emp w.maxSpan).map
      (fun x => RecEntry.wide (dispName x) x.directReports w.maxSpan),
      recCat x = 2 := by
    intro x hx
    rcases List.mem_map.1 hx with ⟨y, _, rfl⟩
    rfl
  have hD : ∀ x ∈ ((dupTitles edges? emps).take 20).map
      (fun t => RecEntry.dupRole t.1 t.2.1 t.2.2), recCat x = 3 := by
    intro x hx
    rcases List.mem_map.1 hx with ⟨y, _, rfl⟩
    rfl
  have hpair : (buildRecs w md (belowMin emp w.minSpan)
      (aboveMax emp w.maxSpan) (dupTitles edges? emps)).Pairwise
      (fun a b => recCat a ≤ recCat b) := by
    rw [hdecomp]
    refine List.pairwise_append.2 ⟨?_, ?_, ?_⟩
    · refine List.pairwise_append.2 ⟨?_, ?_, ?_⟩
      · refine List.pairwise_append.2 ⟨?_, ?_, ?_⟩
        · by_cases hc : w.maxLayersTarget < md
          · rw [if_pos hc]
            exact List.pairwise_singleton _ _
          · rw [if_neg hc]
            exact List.Pairwise.nil
        · exact List.pairwise_of_forall_mem_list
            (fun a ha b hb => by rw [hB a ha, hB b hb])
        · intro a ha b hb
          rw [hA a ha, hB b hb]
          omega
      · exact List.pairwise_of_forall_mem_list
          (fun a ha b hb => by rw [hC a ha, hC b hb])
      · intro a ha b hb
        rcases List.mem_append.1 ha with h | h
        · rw [hA a h, hC b hb]
          omega
        · rw [hB a h, hC b hb]
          omega
    · exact List.pairwise_of_forall_mem_list
        (fun a ha b hb => by rw [hD a ha, hD b hb])
    · intro a ha b hb
      rw [hD b hb]
      rcases List.mem_append.1 ha with h | h
      · rcases List.mem_append.1 h with h2 | h2
        · rw [hA a h2]
          omega
        · rw [hB a h2]
          omega
      · rw [hC a h]
        omega
  refine ⟨hdecomp, hpair, ?_, ?_, ?_⟩
  · exact hpair.sublist (List.take_sublist 50 _)
  · rw [List.length_map]
    exact List.length_take_le 20 _
  · exact (dupTitles_sorted edges? emps).sublist (List.take_sublist 20 _)

/-- C5 is a code bug: the thresholds actually in force never depend on the
session cache seeded from Principles.  The first component shows the
computed output is identical for any two sessions; the concrete run shows
a session seeded with min span 2 while employee A, with 2 direct reports
(not below the cached minimum 2), is still flagged below-min under the
default widget threshold 4. -/
theorem c5_principles_cache_unused :
    (∀ (w : Widgets) (sess1 sess2 : Session) (s : Sheets),
      (runApp w sess1 s).map Prod.fst = (runApp w sess2 s).map Prod.fst) ∧
    (runApp defaultWidgets sessionStart exSheetsPrinciples).toOption.map
        (fun x => x.2) = some ⟨some 2, some 20, some 3, true⟩ ∧
    (runApp defaultWidgets sessionStart exSheetsPrinciples).toOption.map
        (fun x => decide (annA ∈ x.1.below)) = some true ∧
    annA.directReports = 2 ∧ ¬ (annA.directReports < 2) := by
  refine ⟨?_, by decide, by decide, by decide, by decide⟩
  intro w s1 s2 s
  rcases s with ⟨e?, ed?, p?⟩
  cases e? with
  | none => rfl
  | some emps =>
    cases ed? with
    | some es =>
      simp only [runApp, computeMetrics]
      cases maxDepthKPI (annotateEmp emps (some es)) with
      | error e => rfl
      | ok md => rfl
    | none =>
      by_cases hm : emps.hasManagerID = true
      · simp only [runApp, computeMetrics, hm, if_pos]
        cases maxDepthKPI (annotateEmp emps none) with
        | error e => rfl
        | ok md => rfl
      · have hm' : emps.hasManagerID = false := by
          cases h : emps.hasManagerID
          · rfl
          · exact absurd h hm
        simp only [runApp, computeMetrics, hm']
        rfl

theorem seedLayers_minSpan (tr : String) (s : Session) :
    (seedLayersCaches tr s).minSpanCache = s.minSpanCache := by
  unfold seedLayersCaches
  cases firstDigitTok tr with
  | none => rfl
  | some t => rfl

theorem seedLayers_maxSpan (tr : String) (s : Session) :
    (seedLayersCaches tr s).maxSpanCache = s.maxSpanCache := by
  unfold seedLayersCaches
  cases firstDigitTok tr with
  | none => rfl
  | some t => rfl

/-- C6 counterexample: the code's span parse does not extract "leading
digit runs".  On the rule text "1a2-3" it concatenates all digits left of
the dash and caches min = 12, while the leading-digit-run reading of the
spec gives min = 1. -/
theorem c6_counterexample :
    specSpanTargets r"1a2-3" = some (1, 3) ∧
    (seedSpanCaches r"1a2-3" sessionStart).minSpanCache = some 12 ∧
    (seedSpanCaches r"1a2-3" sessionStart).minSpanCache ≠ some 1 := by
  decide

/-- C6 (amended): seeding parses the span target by splitting at the first
dash, the minimum being the concatenation of all digit characters before
the dash and the maximum the digit characters of the first whitespace
token after it (a right-side failure still stores the minimum); the layer
target is the first all-digit whitespace token; parse failures are
silently ignored; and seeding runs at most once per session regardless of
repeated invocation. -/
theorem c6_seeding_behavior :
    (∀ (p? : Option (List PrincipleRow)) (s : Session),
      s.prefilled = true → seedSession p? s = s) ∧
    (∀ (ps ps' : List PrincipleRow) (s : Session),
      seedSession (some ps') (seedSession (some ps) s) =
        seedSession (some ps) s) ∧
    (∀ (ps : List PrincipleRow) (s : Session),
      ps.find? (fun x => containsCI x.name r"span") = none →
      (seedSession (some ps) s).minSpanCache = s.minSpanCache ∧
      (seedSession (some ps) s).maxSpanCache = s.maxSpanCache) ∧
    (∀ (tr : String) (s : Session) (l rgt : String) (rest : List String)
        (rt : String) (mn mx : Nat),
      splitChar '-' tr = l :: rgt :: rest →
      (pyTokens rgt).head? = some rt →
      allDigitsNat l = some mn → allDigitsNat rt = some mx →
      seedSpanCaches tr s =
        { s with minSpanCache := some mn, maxSpanCache := some mx }) ∧
    (∀ (tr : String) (s : Session) (l rgt : String) (rest : List String)
        (rt : String) (mn : Nat),
      splitChar '-' tr = l :: rgt :: rest →
      (pyTokens rgt).head? = some rt →
      allDigitsNat l = some mn → allDigitsNat rt = none →
      seedSpanCaches tr s = { s with minSpanCache := some mn }) ∧
    (∀ (tr : String) (s : Session) (l : String),
      splitChar '-' tr = [l] → seedSpanCaches tr s = s) ∧
    (∀ (tr : String) (s : Session) (l rgt : String) (rest : List String),
      splitChar '-' tr = l :: rgt :: rest →
      ((pyTokens rgt).head? = none ∨ allDigitsNat l = none) →
      seedSpanCaches tr s = s) ∧
    (∀ (tr : String) (s : Session) (t : String),
      firstDigitTok tr = some t →
      seedLayersCaches tr s =
        { s with maxLayersCache := some (digitsToNat t.data) }) ∧
    (∀ (tr : String) (s : Session),
      firstDigitTok tr = none → seedLayersCaches tr s = s) := by
  refine ⟨?_, ?_, ?_, ?_, ?_, ?_, ?_, ?_, ?_⟩
  · intro p? s h
    cases p? with
    | none => rfl
    | some ps =>
      simp [seedSession, h]
  · intro ps ps' s
    by_cases h : s.prefilled = true
    · have h1 : seedSession (some ps) s = s := by simp [seedSession, h]
      rw [h1]
      simp [seedSession, h]
    · have h1 : s.prefilled = false := by
        cases hh : s.prefilled
        · rfl
        · exact absurd hh h
      have h2 : seedSession (some ps) s = seedFromPrinciples ps s := by
        simp [seedSession, h1]
      rw [h2]
      have h3 : (seedFromPrinciples ps s).prefilled = true := rfl
      simp [seedSession, h3]
  · intro ps s hfind
    cases hsp : s.prefilled with
    | true =>
      have : seedSession (some ps) s = s := by simp [seedSession, hsp]
      rw [this]
      exact ⟨rfl, rfl⟩
    | false =>
      have h2 : seedSession (some ps) s = seedFromPrinciples ps s := by
        simp [seedSession, hsp]
      rw [h2]
      unfold seedFromPrinciples
      rw [hfind]
      cases hfind2 : ps.find? (fun x => containsCI x.name r"layer") with
      | none => exact ⟨rfl, rfl⟩
      | some row =>
        exact ⟨seedLayers_minSpan row.targetRule s,
          seedLayers_maxSpan row.targetRule s⟩
  · intro tr s l rgt rest rt mn mx hsplit htok hl hr
    simp only [seedSpanCaches, seedSpanParts, hsplit, htok, hl, hr]
  · intro tr s l rgt rest rt mn hsplit htok hl hr
    simp only [seedSpanCaches, seedSpanParts, hsplit, htok, hl, hr]
  · intro tr s l hsplit
    simp only [seedSpanCaches, seedSpanParts, hsplit]
  · intro tr s l rgt rest hsplit hfail
    rcases hfail with h | h
    · simp only [seedSpanCaches, seedSpanParts, hsplit, h]
    · cases htok : (pyTokens rgt).head? with
      | none => simp only [seedSpanCaches, seedSpanParts, hsplit, htok]
      | some rt => simp only [seedSpanCaches, seedSpanParts, hsplit, htok, h]
  · intro tr s t ht
    unfold seedLayersCaches
    rw [ht]
  · intro tr s ht
    unfold seedLayersCaches
    rw [ht]

/-- Witness for C6 (amended): a second seeding in the same session is a
no-op, and "4-12 direct reports" seeds min 4 and max 12. -/
theorem c6_witness :
    seedSession (some [⟨r"Span", r"9-9"⟩])
        (seedSession (some exPrinciples) sessionStart) =
      seedSession (some exPrinciples) sessionStart ∧
    seedSpanCaches r"4-12 direct reports" sessionStart =
      { sessionStart with minSpanCache := some 4, maxSpanCache := some 12 } := by
  refine ⟨c6_seeding_behavior.2.1 exPrinciples [⟨r"Span", r"9-9"⟩]
    sessionStart, ?_⟩
  exact c6_seeding_behavior.2.2.2.1 (r"4-12 direct reports") sessionStart
    (r"4") (r"12 direct reports") [] (r"12") 4 12 (by decide) (by decide)
    (by decide) (by decide)

/-- C8 is a code bug: the two declared fail-fast conditions do halt with a
user-facing error, but a present-yet-empty employee table also halts the
pipeline — `int(emp['Depth'].max())` raises ValueError on the NaN max of
an empty series — contradicting the policy that only missing-required-
input halts. -/
theorem c8_halting :
    runApp defaultWidgets sessionStart ⟨none, some [], none⟩ =
      .error .noEmployees ∧
    runApp defaultWidgets sessionStart
        ⟨some ⟨false, false, exRows⟩, none, none⟩ =
      .error .noReportingSource ∧
    runApp defaultWidgets sessionStart ⟨some ⟨true, false, []⟩, none, none⟩ =
      .error .emptyRosterMaxCrash :=
  ⟨rfl, rfl, rfl⟩

end OrgHealth
